import Mathlib

/-!
Shallow embedding of `src/include/lru_cache.hpp` (`interview::ThreadSafeLRUCache`).

The C++ class stores a `std::list<CacheEntry>` ordered by recency (head = most
recently used) together with a `std::unordered_map<Key, list::iterator>` index.
A `std::list` iterator is a stable node handle that survives `splice`; we model
node identity with a `Nat` id attached to each entry, so the index maps keys to
node ids.  The wall clock (`steady_clock::now()`) and the measured call
durations are environment inputs; they are threaded in as explicit `Nat`
parameters (`t` for the creation timestamp of an entry, `d` for the duration
added to the latency accumulator).  Machine counters (`size_t`, `uint64_t`)
are modelled as `Nat`: the C++ counters only ever increase by small increments
and are never subtracted, so overflow is not exercised by any claim.
-/

set_option linter.unusedVariables false
set_option linter.unusedSectionVars false

namespace Interview

/-- `CacheEntry` from lru_cache.hpp: key, value, and `access_time`, which the
C++ constructor sets from `steady_clock::now()` at entry creation (modelled as
a `Nat` timestamp supplied by the environment). -/
structure CacheEntry (K V : Type) where
  key : K
  value : V
  access_time : Nat
  deriving DecidableEq, Repr

/-- A node of the `std::list<CacheEntry>`: the `Nat` component models the
stable node identity that a `std::list` iterator denotes (iterators stay
valid across `splice`). -/
abbrev Node (K V : Type) := Nat × CacheEntry K V

/-- State of `interview::ThreadSafeLRUCache`: capacity, the recency list
(head = most recently used), the key-to-iterator index (`index_`), the fresh
node-id counter (modelling allocation of new list nodes), and the three
atomic metric counters. -/
structure ThreadSafeLRUCache (K V : Type) where
  capacity_ : Nat
  lru_list_ : List (Node K V)
  index_ : List (K × Nat)
  next_node_id : Nat
  hit_count_ : Nat
  miss_count_ : Nat
  total_access_time_ns_ : Nat
  deriving DecidableEq, Repr

variable {K V : Type}

/-- Lookup in the index (`index_.find(key)`), returning the node id the
iterator stored for `key` denotes. -/
def lookupIdx [DecidableEq K] (k : K) : List (K × Nat) → Option Nat
  | [] => none
  | p :: rest => if p.1 = k then some p.2 else lookupIdx k rest

/-- Erase a key from the index (`index_.erase(key)`). -/
def eraseKey [DecidableEq K] (k : K) : List (K × Nat) → List (K × Nat)
  | [] => []
  | p :: rest => if p.1 = k then rest else p :: eraseKey k rest

/-- Dereference a node id in the list (following the stored iterator). -/
def findNode (id : Nat) : List (Node K V) → Option (CacheEntry K V)
  | [] => none
  | q :: rest => if q.1 = id then some q.2 else findNode id rest

/-- Unlink the node with the given id (`lru_list_.erase(it)`). -/
def eraseNode (id : Nat) : List (Node K V) → List (Node K V)
  | [] => []
  | q :: rest => if q.1 = id then rest else q :: eraseNode id rest

/-- Overwrite the value stored in the node with the given id
(`it->second->value = std::move(value)`); key and `access_time` are untouched. -/
def updateValue (id : Nat) (v : V) : List (Node K V) → List (Node K V)
  | [] => []
  | q :: rest =>
      if q.1 = id then (q.1, { q.2 with value := v }) :: rest
      else q :: updateValue id v rest

/-- `move_to_front_unsafe` (renamed: Lean identifier hygiene): splice the node with the given id to the head of
the list; a no-op when the node is already at the head (the splice of the head
to the head reproduces the same list). -/
def move_to_front_nolock (id : Nat) (l : List (Node K V)) : List (Node K V) :=
  match findNode id l with
  | none => l
  | some e => (id, e) :: eraseNode id l

/-- Body of the `while (lru_list_.size() >= capacity_)` loop of
`evict_if_needed_unsafe`, written with an explicit fuel so the recursion is
structural: every iteration removes the tail node and erases its key from the
index, shrinking the list by one, so a fuel equal to the initial list length
is never exhausted before the loop condition turns false. -/
def evict_loop [DecidableEq K] (cap : Nat) :
    Nat → List (Node K V) → List (K × Nat) →
      List (Node K V) × List (K × Nat)
  | 0, l, idx => (l, idx)
  | fuel + 1, l, idx =>
      if h : 0 < l.length ∧ cap ≤ l.length then
        evict_loop cap fuel l.dropLast
          (eraseKey (l.getLast (List.length_pos.mp h.1)).2.key idx)
      else (l, idx)

/-- `evict_if_needed_unsafe` (renamed: Lean identifier hygiene): while `lru_list_.size() >= capacity_`, remove the
tail node and erase its key from the index.  (With `capacity_ >= 1`, as the
constructor guarantees, `cap <= length` implies the list is nonempty, so the
nonemptiness guard matches the C++ loop on all reachable states.) -/
def evict_if_needed_nolock [DecidableEq K] (cap : Nat) (l : List (Node K V))
    (idx : List (K × Nat)) : List (Node K V) × List (K × Nat) :=
  evict_loop cap l.length l idx

namespace ThreadSafeLRUCache

/-- The member-initialized state of a freshly constructed cache (all
containers empty, all counters zero), before the constructor's capacity
check. -/
def initCache (K V : Type) (capacity : Nat) : ThreadSafeLRUCache K V :=
  { capacity_ := capacity, lru_list_ := [], index_ := [], next_node_id := 0,
    hit_count_ := 0, miss_count_ := 0, total_access_time_ns_ := 0 }

/-- The constructor `ThreadSafeLRUCache(size_t capacity)`: throws
`CacheException("Cache capacity must be greater than 0")` when `capacity == 0`,
otherwise yields the freshly initialized instance. -/
def construct (K V : Type) (capacity : Nat) :
    Except String (ThreadSafeLRUCache K V) :=
  if capacity = 0 then .error "Cache capacity must be greater than 0"
  else .ok (initCache K V capacity)

/-- `get(key)`: on miss increment `miss_count_` and return `nullopt`; on hit
increment `hit_count_`, move the node to the front, and return its value.
Either way the measured duration `d` is added to `total_access_time_ns_`. -/
def get [DecidableEq K] (c : ThreadSafeLRUCache K V) (key : K) (d : Nat) :
    Option V × ThreadSafeLRUCache K V :=
  match lookupIdx key c.index_ with
  | none =>
      (none, { c with miss_count_ := c.miss_count_ + 1,
                      total_access_time_ns_ := c.total_access_time_ns_ + d })
  | some id =>
      let l := move_to_front_nolock id c.lru_list_
      ((findNode id l).map (fun e => e.value),
       { c with lru_list_ := l,
                hit_count_ := c.hit_count_ + 1,
                total_access_time_ns_ := c.total_access_time_ns_ + d })

/-- `put(key, value)`: if the key is present, overwrite the value in place and
move the node to the front; otherwise evict while full, then emplace a new
entry (with creation timestamp `t`) at the front and point the index at it.
Returns `true` in both branches and adds the duration `d` to the accumulator. -/
def put [DecidableEq K] (c : ThreadSafeLRUCache K V) (key : K) (value : V)
    (t d : Nat) : Bool × ThreadSafeLRUCache K V :=
  match lookupIdx key c.index_ with
  | some id =>
      (true, { c with
        lru_list_ := move_to_front_nolock id (updateValue id value c.lru_list_),
        total_access_time_ns_ := c.total_access_time_ns_ + d })
  | none =>
      let p := evict_if_needed_nolock c.capacity_ c.lru_list_ c.index_
      (true, { c with
        lru_list_ := (c.next_node_id, ⟨key, value, t⟩) :: p.1,
        index_ := (key, c.next_node_id) :: p.2,
        next_node_id := c.next_node_id + 1,
        total_access_time_ns_ := c.total_access_time_ns_ + d })

/-- `remove(key)`: erase the node and its index entry when present; metrics are
not touched in either branch. -/
def remove [DecidableEq K] (c : ThreadSafeLRUCache K V) (key : K) :
    Bool × ThreadSafeLRUCache K V :=
  match lookupIdx key c.index_ with
  | none => (false, c)
  | some id =>
      (true, { c with lru_list_ := eraseNode id c.lru_list_,
                      index_ := eraseKey key c.index_ })

/-- `contains(key)`: read-only membership test on the index. -/
def contains [DecidableEq K] (c : ThreadSafeLRUCache K V) (key : K) : Bool :=
  (lookupIdx key c.index_).isSome

/-- `size()`: the length of the recency list. -/
def size (c : ThreadSafeLRUCache K V) : Nat :=
  c.lru_list_.length

/-- `capacity()`: the immutable configured capacity. -/
def capacity (c : ThreadSafeLRUCache K V) : Nat :=
  c.capacity_

/-- `empty()`: whether the recency list is empty. -/
def empty (c : ThreadSafeLRUCache K V) : Bool :=
  c.lru_list_.isEmpty

/-- `clear()`: empties list and index; counters are not touched. -/
def clear (c : ThreadSafeLRUCache K V) : ThreadSafeLRUCache K V :=
  { c with lru_list_ := [], index_ := [] }

/-- `reset_metrics()`: zeroes the hit and miss counters and the latency
accumulator; entries are not touched. -/
def reset_metrics (c : ThreadSafeLRUCache K V) : ThreadSafeLRUCache K V :=
  { c with hit_count_ := 0, miss_count_ := 0, total_access_time_ns_ := 0 }

end ThreadSafeLRUCache

/-- One public operation on the cache, with its environment inputs (`t` the
clock reading used for a created entry's `access_time`, `d` the measured call
duration). -/
inductive Op (K V : Type) where
  | put (k : K) (v : V) (t d : Nat)
  | get (k : K) (d : Nat)
  | remove (k : K)
  | clear
  | contains (k : K)
  | reset_metrics
  deriving DecidableEq, Repr

/-- Apply one operation to the cache state (`contains` takes only shared
access and does not mutate anything). -/
def applyOp [DecidableEq K] (c : ThreadSafeLRUCache K V) :
    Op K V → ThreadSafeLRUCache K V
  | .put k v t d => (c.put k v t d).2
  | .get k d => (c.get k d).2
  | .remove k => (c.remove k).2
  | .clear => c.clear
  | .contains _ => c
  | .reset_metrics => c.reset_metrics

/-- Run a sequence of operations, oldest first. -/
def runOps [DecidableEq K] (c : ThreadSafeLRUCache K V) :
    List (Op K V) → ThreadSafeLRUCache K V
  | [] => c
  | op :: rest => runOps (applyOp c op) rest

/-- The keys of the entries in the recency list, head first. -/
def keysOf (l : List (Node K V)) : List K :=
  l.map (fun q => q.2.key)

/-- The node ids of the recency list, head first. -/
def idsOf (l : List (Node K V)) : List Nat :=
  l.map (fun q => q.1)

/-- The keys stored in the index. -/
def idxKeys (idx : List (K × Nat)) : List K :=
  idx.map (fun p => p.1)

/-- Structural consistency of a recency list `l`, an index `idx`, and a node
allocation counter `n`: no duplicate keys or node ids in the sequence, no
duplicate keys in the index, every locator stored in the index dereferences to
a node currently holding that key, every sequence key is present in the index,
and all allocated node ids are below the counter. -/
def WfT [DecidableEq K] (l : List (Node K V)) (idx : List (K × Nat))
    (n : Nat) : Prop :=
  (keysOf l).Nodup ∧
  (idsOf l).Nodup ∧
  (idxKeys idx).Nodup ∧
  (∀ p ∈ idx, (findNode p.2 l).map (fun e => e.key) = some p.1) ∧
  (∀ q ∈ l, (lookupIdx q.2.key idx).isSome = true) ∧
  (∀ q ∈ l, q.1 < n)

/-- Structural consistency of a cache state, as the spec states it: the index
keys and the sequence keys coincide as sets (both inclusions hold), the
sequence holds no duplicate keys, and the locator stored for each key refers
to that key's current node. -/
def Wf [DecidableEq K] (c : ThreadSafeLRUCache K V) : Prop :=
  WfT c.lru_list_ c.index_ c.next_node_id

instance [DecidableEq K] [DecidableEq V] (l : List (Node K V))
    (idx : List (K × Nat)) (n : Nat) : Decidable (WfT l idx n) := by
  unfold WfT
  infer_instance

instance [DecidableEq K] [DecidableEq V] (c : ThreadSafeLRUCache K V) :
    Decidable (Wf c) := by
  unfold Wf
  infer_instance

/-- The (id, key, timestamp) skeleton of the recency list: everything about an
entry except its value.  Used to state that operations never rewrite a stored
`access_time`. -/
def metaOf (l : List (Node K V)) : List (Nat × K × Nat) :=
  l.map (fun q => (q.1, q.2.key, q.2.access_time))

section AssocLemmas

variable [DecidableEq K]

theorem lookupIdx_isSome_iff (k : K) (idx : List (K × Nat)) :
    (lookupIdx k idx).isSome = true ↔ k ∈ idxKeys idx := by
  induction idx with
  | nil => simp [lookupIdx, idxKeys]
  | cons p rest ih =>
      by_cases h : p.1 = k
      · simp [lookupIdx, idxKeys, h]
      · simp only [lookupIdx, idxKeys, List.map_cons, List.mem_cons, if_neg h]
        rw [ih]
        simp [idxKeys]
        intro hk
        exact absurd hk.symm h

theorem lookupIdx_eq_none_iff (k : K) (idx : List (K × Nat)) :
    lookupIdx k idx = none ↔ k ∉ idxKeys idx := by
  rw [← lookupIdx_isSome_iff]
  cases lookupIdx k idx <;> simp

theorem lookupIdx_eq_some_mem {k : K} {idx : List (K × Nat)} {id : Nat}
    (h : lookupIdx k idx = some id) : (k, id) ∈ idx := by
  induction idx with
  | nil => simp [lookupIdx] at h
  | cons p rest ih =>
      by_cases hp : p.1 = k
      · simp only [lookupIdx, if_pos hp] at h
        cases h
        subst hp
        simp
      · simp only [lookupIdx, if_neg hp] at h
        exact List.mem_cons_of_mem _ (ih h)

theorem eraseKey_sublist (k : K) (idx : List (K × Nat)) :
    List.Sublist (eraseKey k idx) idx := by
  induction idx with
  | nil => simp [eraseKey]
  | cons p rest ih =>
      by_cases hp : p.1 = k
      · simp only [eraseKey, if_pos hp]
        exact List.sublist_cons_self p rest
      · simp only [eraseKey, if_neg hp]
        exact ih.cons₂ p

theorem mem_eraseKey_ne {k : K} {idx : List (K × Nat)}
    (hnd : (idxKeys idx).Nodup) {p : K × Nat} (hp : p ∈ eraseKey k idx) :
    p ∈ idx ∧ p.1 ≠ k := by
  induction idx with
  | nil => simp [eraseKey] at hp
  | cons q rest ih =>
      simp only [idxKeys, List.map_cons, List.nodup_cons] at hnd
      by_cases hq : q.1 = k
      · simp only [eraseKey, if_pos hq] at hp
        refine ⟨List.mem_cons_of_mem _ hp, ?_⟩
        intro hpk
        apply hnd.1
        rw [hq, ← hpk]
        exact List.mem_map_of_mem (fun r => r.1) hp
      · simp only [eraseKey, if_neg hq] at hp
        rcases List.mem_cons.mp hp with hp | hp
        · constructor
          · rw [hp]
            exact List.mem_cons_self q rest
          · rw [hp]
            exact hq
        · have := ih hnd.2 hp
          exact ⟨List.mem_cons_of_mem _ this.1, this.2⟩

theorem lookupIdx_eraseKey_ne {k' k : K} (hne : k' ≠ k)
    (idx : List (K × Nat)) :
    lookupIdx k' (eraseKey k idx) = lookupIdx k' idx := by
  induction idx with
  | nil => simp [eraseKey]
  | cons p rest ih =>
      by_cases hp : p.1 = k
      · have hpk : ¬ p.1 = k' := fun h => hne (h.symm.trans hp)
        simp only [eraseKey, if_pos hp, lookupIdx, if_neg hpk]
      · simp only [eraseKey, if_neg hp, lookupIdx]
        by_cases hp' : p.1 = k'
        · simp [hp']
        · simp [hp', ih]

end AssocLemmas

section NodeLemmas

theorem findNode_isSome_iff (id : Nat) (l : List (Node K V)) :
    (findNode id l).isSome = true ↔ id ∈ idsOf l := by
  induction l with
  | nil => simp [findNode, idsOf]
  | cons q rest ih =>
      by_cases h : q.1 = id
      · simp [findNode, idsOf, h]
      · simp only [findNode, idsOf, List.map_cons, List.mem_cons, if_neg h]
        rw [ih]
        simp [idsOf]
        intro hk
        exact absurd hk.symm h

theorem findNode_eq_none_iff (id : Nat) (l : List (Node K V)) :
    findNode id l = none ↔ id ∉ idsOf l := by
  rw [← findNode_isSome_iff]
  cases findNode id l <;> simp

theorem findNode_eq_some_mem {id : Nat} {l : List (Node K V)}
    {e : CacheEntry K V} (h : findNode id l = some e) : (id, e) ∈ l := by
  induction l with
  | nil => simp [findNode] at h
  | cons q rest ih =>
      by_cases hq : q.1 = id
      · simp only [findNode, if_pos hq] at h
        cases h
        subst hq
        simp
      · simp only [findNode, if_neg hq] at h
        exact List.mem_cons_of_mem _ (ih h)

theorem findNode_eq_some_of_mem {id : Nat} {l : List (Node K V)}
    {e : CacheEntry K V} (hnd : (idsOf l).Nodup) (h : (id, e) ∈ l) :
    findNode id l = some e := by
  induction l with
  | nil => simp at h
  | cons q rest ih =>
      simp only [idsOf, List.map_cons, List.nodup_cons] at hnd
      rcases List.mem_cons.mp h with h | h
      · rw [← h]
        simp [findNode]
      · have hne : ¬ q.1 = id := by
          intro hq
          apply hnd.1
          rw [hq]
          exact List.mem_map_of_mem (fun r => r.1) h
        simp only [findNode, if_neg hne]
        exact ih hnd.2 h

theorem eraseNode_sublist (id : Nat) (l : List (Node K V)) :
    List.Sublist (eraseNode id l) l := by
  induction l with
  | nil => simp [eraseNode]
  | cons q rest ih =>
      by_cases hq : q.1 = id
      · simp only [eraseNode, if_pos hq]
        exact List.sublist_cons_self q rest
      · simp only [eraseNode, if_neg hq]
        exact ih.cons₂ q

theorem mem_eraseNode_ne {id : Nat} {l : List (Node K V)}
    (hnd : (idsOf l).Nodup) {q : Node K V} (hq : q ∈ eraseNode id l) :
    q ∈ l ∧ q.1 ≠ id := by
  induction l with
  | nil => simp [eraseNode] at hq
  | cons r rest ih =>
      simp only [idsOf, List.map_cons, List.nodup_cons] at hnd
      by_cases hr : r.1 = id
      · simp only [eraseNode, if_pos hr] at hq
        refine ⟨List.mem_cons_of_mem _ hq, ?_⟩
        intro hqid
        apply hnd.1
        rw [hr, ← hqid]
        exact List.mem_map_of_mem (fun s => s.1) hq
      · simp only [eraseNode, if_neg hr] at hq
        rcases List.mem_cons.mp hq with hq | hq
        · constructor
          · rw [hq]
            exact List.mem_cons_self r rest
          · rw [hq]
            exact hr
        · have := ih hnd.2 hq
          exact ⟨List.mem_cons_of_mem _ this.1, this.2⟩

theorem findNode_eraseNode_ne {id' id : Nat} (hne : id' ≠ id)
    (l : List (Node K V)) :
    findNode id' (eraseNode id l) = findNode id' l := by
  induction l with
  | nil => simp [eraseNode]
  | cons q rest ih =>
      by_cases hq : q.1 = id
      · have hq' : ¬ q.1 = id' := fun h => hne (h.symm.trans hq)
        simp only [eraseNode, if_pos hq, findNode, if_neg hq']
      · simp only [eraseNode, if_neg hq, findNode]
        by_cases hq' : q.1 = id'
        · simp [hq']
        · simp [hq', ih]

theorem perm_cons_eraseNode {id : Nat} {l : List (Node K V)}
    {e : CacheEntry K V} (h : findNode id l = some e) :
    List.Perm l ((id, e) :: eraseNode id l) := by
  induction l with
  | nil => simp [findNode] at h
  | cons q rest ih =>
      by_cases hq : q.1 = id
      · simp only [findNode, if_pos hq] at h
        cases h
        simp only [eraseNode, if_pos hq]
        rw [← hq]
      · simp only [findNode, if_neg hq] at h
        simp only [eraseNode, if_neg hq]
        exact (List.Perm.cons q (ih h)).trans (List.Perm.swap _ q _)

theorem findNode_updateValue (id' id : Nat) (v : V) (l : List (Node K V)) :
    findNode id' (updateValue id v l) =
      if id' = id then (findNode id l).map (fun e => { e with value := v })
      else findNode id' l := by
  induction l with
  | nil => simp [updateValue, findNode]
  | cons q rest ih =>
      by_cases hq : q.1 = id
      · by_cases h' : id' = id
        · subst h'
          simp [updateValue, findNode, hq]
        · have h2 : ¬ id = id' := fun h => h' h.symm
          have h3 : ¬ q.1 = id' := fun h => h' (h.symm.trans hq)
          simp [updateValue, findNode, hq, h2, h3, h']
      · by_cases hq' : q.1 = id'
        · have hne : ¬ id' = id := fun h => hq (hq'.trans h)
          simp [updateValue, findNode, hq, hq', hne]
        · simp [updateValue, findNode, hq, hq', ih]

theorem map_fst_key_updateValue (id : Nat) (v : V) (l : List (Node K V)) :
    (updateValue id v l).map (fun q => (q.1, q.2.key)) =
      l.map (fun q => (q.1, q.2.key)) := by
  induction l with
  | nil => simp [updateValue]
  | cons q rest ih =>
      by_cases hq : q.1 = id
      · simp [updateValue, hq]
      · simp [updateValue, hq, ih]

theorem metaOf_updateValue (id : Nat) (v : V) (l : List (Node K V)) :
    metaOf (updateValue id v l) = metaOf l := by
  induction l with
  | nil => simp [updateValue, metaOf]
  | cons q rest ih =>
      by_cases hq : q.1 = id
      · simp [updateValue, metaOf, hq]
      · simpa [updateValue, metaOf, hq] using ih

theorem keysOf_updateValue (id : Nat) (v : V) (l : List (Node K V)) :
    keysOf (updateValue id v l) = keysOf l := by
  have h := map_fst_key_updateValue id v l
  have h2 := congrArg (List.map (fun r : Nat × K => r.2)) h
  simpa [keysOf, Function.comp] using h2

theorem idsOf_updateValue (id : Nat) (v : V) (l : List (Node K V)) :
    idsOf (updateValue id v l) = idsOf l := by
  have h := map_fst_key_updateValue id v l
  have h2 := congrArg (List.map (fun r : Nat × K => r.1)) h
  simpa [idsOf, Function.comp] using h2

theorem length_updateValue (id : Nat) (v : V) (l : List (Node K V)) :
    (updateValue id v l).length = l.length := by
  induction l with
  | nil => simp [updateValue]
  | cons q rest ih =>
      by_cases hq : q.1 = id
      · simp [updateValue, hq]
      · simp [updateValue, hq, ih]

theorem move_to_front_perm (id : Nat) (l : List (Node K V)) :
    List.Perm (move_to_front_nolock id l) l := by
  unfold move_to_front_nolock
  cases h : findNode id l with
  | none => exact List.Perm.refl l
  | some e => exact (perm_cons_eraseNode h).symm

theorem length_move_to_front (id : Nat) (l : List (Node K V)) :
    (move_to_front_nolock id l).length = l.length :=
  (move_to_front_perm id l).length_eq

theorem keysOf_move_to_front_perm (id : Nat) (l : List (Node K V)) :
    List.Perm (keysOf (move_to_front_nolock id l)) (keysOf l) := by
  unfold keysOf
  exact List.Perm.map _ (move_to_front_perm id l)

theorem idsOf_move_to_front_perm (id : Nat) (l : List (Node K V)) :
    List.Perm (idsOf (move_to_front_nolock id l)) (idsOf l) := by
  unfold idsOf
  exact List.Perm.map _ (move_to_front_perm id l)

theorem metaOf_move_to_front_perm (id : Nat) (l : List (Node K V)) :
    List.Perm (metaOf (move_to_front_nolock id l)) (metaOf l) := by
  unfold metaOf
  exact List.Perm.map _ (move_to_front_perm id l)

theorem findNode_move_to_front (hnd : (idsOf l).Nodup) (id' id : Nat) :
    findNode id' (move_to_front_nolock id l) = findNode id' l := by
  have hnd' : (idsOf (move_to_front_nolock id l)).Nodup :=
    (idsOf_move_to_front_perm id l).nodup_iff.mpr hnd
  cases h : findNode id' l with
  | none =>
      rw [findNode_eq_none_iff] at h ⊢
      intro hmem
      exact h (((idsOf_move_to_front_perm id l).mem_iff).mp hmem)
  | some e =>
      have hmem : (id', e) ∈ l := findNode_eq_some_mem h
      have hmem' : (id', e) ∈ move_to_front_nolock id l :=
        ((move_to_front_perm id l).mem_iff).mpr hmem
      exact findNode_eq_some_of_mem hnd' hmem'

end NodeLemmas

section EvictLemmas

variable [DecidableEq K]

theorem evict_loop_no {cap : Nat} (fuel : Nat) {l : List (Node K V)}
    (idx : List (K × Nat)) (h : l.length < cap) :
    evict_loop cap fuel l idx = (l, idx) := by
  cases fuel with
  | zero => rfl
  | succ n =>
      rw [evict_loop, dif_neg]
      intro hcontra
      omega

theorem evict_of_lt {cap : Nat} {l : List (Node K V)} (idx : List (K × Nat))
    (h : l.length < cap) : evict_if_needed_nolock cap l idx = (l, idx) :=
  evict_loop_no l.length idx h

theorem evict_of_eq {cap : Nat} {l : List (Node K V)} (idx : List (K × Nat))
    (hcap : 0 < cap) (hne : l ≠ []) (h : l.length = cap) :
    evict_if_needed_nolock cap l idx =
      (l.dropLast, eraseKey (l.getLast hne).2.key idx) := by
  unfold evict_if_needed_nolock
  obtain ⟨m, hm⟩ : ∃ m, l.length = m + 1 := ⟨cap - 1, by omega⟩
  rw [hm, evict_loop, dif_pos ⟨by omega, by omega⟩]
  exact evict_loop_no m _ (by simp only [List.length_dropLast]; omega)

theorem eraseNode_getLast_eq_dropLast {l : List (Node K V)}
    (hnd : (idsOf l).Nodup) (hne : l ≠ []) :
    eraseNode (l.getLast hne).1 l = l.dropLast := by
  induction l with
  | nil => exact absurd rfl hne
  | cons q rest ih =>
      by_cases hrest : rest = []
      · subst hrest
        simp [eraseNode, List.getLast]
      · have hlast : (q :: rest).getLast hne = rest.getLast hrest :=
          List.getLast_cons hrest
        simp only [idsOf, List.map_cons, List.nodup_cons] at hnd
        have hqne : ¬ q.1 = ((q :: rest).getLast hne).1 := by
          intro hq
          apply hnd.1
          rw [hq, hlast]
          exact List.mem_map_of_mem (fun s => s.1) (rest.getLast_mem hrest)
        simp only [eraseNode, if_neg hqne]
        rw [hlast, ih hnd.2 hrest, List.dropLast_cons_of_ne_nil hrest]

end EvictLemmas

section WfLemmas

variable [DecidableEq K]

theorem WfT_lookup_of_mem {l : List (Node K V)} {idx : List (K × Nat)}
    {n : Nat} (hwf : WfT l idx n) {q : Node K V} (hq : q ∈ l) :
    lookupIdx q.2.key idx = some q.1 := by
  obtain ⟨hkn, hin, hxn, hloc, hcov, hlt⟩ := hwf
  have hsome := hcov q hq
  cases hlk : lookupIdx q.2.key idx with
  | none => rw [hlk] at hsome; simp at hsome
  | some id =>
      have hmem : (q.2.key, id) ∈ idx := lookupIdx_eq_some_mem hlk
      have hfind := hloc _ hmem
      cases hfe : findNode id l with
      | none => rw [hfe] at hfind; simp at hfind
      | some e =>
          rw [hfe] at hfind
          simp only [Option.map_some] at hfind
          have hmem2 : (id, e) ∈ l := findNode_eq_some_mem hfe
          have hkey : e.key = q.2.key := by
            injection hfind
          have heq : (id, e) = q := by
            apply List.inj_on_of_nodup_map hkn hmem2 hq
            simpa [keysOf] using hkey
          rw [← heq]

theorem WfT_move_to_front {l : List (Node K V)} {idx : List (K × Nat)}
    {n : Nat} (hwf : WfT l idx n) (id : Nat) :
    WfT (move_to_front_nolock id l) idx n := by
  obtain ⟨hkn, hin, hxn, hloc, hcov, hlt⟩ := hwf
  refine ⟨?_, ?_, hxn, ?_, ?_, ?_⟩
  · exact (keysOf_move_to_front_perm id l).nodup_iff.mpr hkn
  · exact (idsOf_move_to_front_perm id l).nodup_iff.mpr hin
  · intro p hp
    rw [findNode_move_to_front hin]
    exact hloc p hp
  · intro q hq
    exact hcov q ((move_to_front_perm id l).mem_iff.mp hq)
  · intro q hq
    exact hlt q ((move_to_front_perm id l).mem_iff.mp hq)

theorem WfT_updateValue {l : List (Node K V)} {idx : List (K × Nat)}
    {n : Nat} (hwf : WfT l idx n) (id : Nat) (v : V) :
    WfT (updateValue id v l) idx n := by
  obtain ⟨hkn, hin, hxn, hloc, hcov, hlt⟩ := hwf
  have hmeta := map_fst_key_updateValue id v l
  refine ⟨?_, ?_, hxn, ?_, ?_, ?_⟩
  · rw [keysOf_updateValue]
    exact hkn
  · rw [idsOf_updateValue]
    exact hin
  · intro p hp
    rw [findNode_updateValue]
    by_cases h : p.2 = id
    · rw [if_pos h, ← h]
      have := hloc p hp
      cases hfe : findNode p.2 l with
      | none => rw [hfe] at this; simp at this
      | some e =>
          rw [hfe] at this
          simpa using this
    · rw [if_neg h]
      exact hloc p hp
  · intro q hq
    have hq2 : (q.1, q.2.key) ∈ l.map (fun r => (r.1, r.2.key)) := by
      rw [← hmeta]
      exact List.mem_map_of_mem _ hq
    rcases List.mem_map.mp hq2 with ⟨r, hr, hreq⟩
    have : r.2.key = q.2.key := congrArg (fun s => s.2) hreq
    rw [← this]
    exact hcov r hr
  · intro q hq
    have hq2 : (q.1, q.2.key) ∈ l.map (fun r => (r.1, r.2.key)) := by
      rw [← hmeta]
      exact List.mem_map_of_mem _ hq
    rcases List.mem_map.mp hq2 with ⟨r, hr, hreq⟩
    have : r.1 = q.1 := congrArg (fun s => s.1) hreq
    rw [← this]
    exact hlt r hr

theorem WfT_erase {l : List (Node K V)} {idx : List (K × Nat)} {n : Nat}
    (hwf : WfT l idx n) {k : K} {id : Nat}
    (hlk : lookupIdx k idx = some id) :
    WfT (eraseNode id l) (eraseKey k idx) n := by
  obtain ⟨hkn, hin, hxn, hloc, hcov, hlt⟩ := hwf
  have hmem : (k, id) ∈ idx := lookupIdx_eq_some_mem hlk
  have hfk := hloc _ hmem
  refine ⟨?_, ?_, ?_, ?_, ?_, ?_⟩
  · have hs : List.Sublist (keysOf (eraseNode id l)) (keysOf l) := by
      unfold keysOf
      exact (eraseNode_sublist id l).map _
    exact hkn.sublist hs
  · have hs : List.Sublist (idsOf (eraseNode id l)) (idsOf l) := by
      unfold idsOf
      exact (eraseNode_sublist id l).map _
    exact hin.sublist hs
  · have hs : List.Sublist (idxKeys (eraseKey k idx)) (idxKeys idx) := by
      unfold idxKeys
      exact (eraseKey_sublist k idx).map _
    exact hxn.sublist hs
  · intro p hp
    obtain ⟨hpidx, hpk⟩ := mem_eraseKey_ne hxn hp
    have hne : p.2 ≠ id := by
      intro hpid
      apply hpk
      have h1 := hloc p hpidx
      rw [hpid] at h1
      cases hfe : findNode id l with
      | none =>
          rw [hfe] at h1
          simp at h1
      | some e =>
          rw [hfe] at h1 hfk
          simp only [Option.map_some] at h1 hfk
          have h2 := h1.symm.trans hfk
          injection h2
    rw [findNode_eraseNode_ne hne]
    exact hloc p hpidx
  · intro q hq
    obtain ⟨hql, hqid⟩ := mem_eraseNode_ne hin hq
    have hqk : q.2.key ≠ k := by
      intro hk2
      apply hqid
      have h3 := WfT_lookup_of_mem ⟨hkn, hin, hxn, hloc, hcov, hlt⟩ hql
      rw [hk2, hlk] at h3
      injection h3 with h4
      exact h4.symm
    rw [lookupIdx_eraseKey_ne hqk]
    exact hcov q hql
  · intro q hq
    exact hlt q (mem_eraseNode_ne hin hq).1

end WfLemmas

section EqLemmas

variable [DecidableEq K]

theorem lookupIdx_eraseKey_none {k : K} {idx : List (K × Nat)}
    (h : lookupIdx k idx = none) (k' : K) :
    lookupIdx k (eraseKey k' idx) = none := by
  rw [lookupIdx_eq_none_iff] at h ⊢
  intro hmem
  apply h
  have hs : List.Sublist (idxKeys (eraseKey k' idx)) (idxKeys idx) := by
    unfold idxKeys
    exact (eraseKey_sublist k' idx).map _
  exact hs.subset hmem

theorem WfT_key_not_mem {l : List (Node K V)} {idx : List (K × Nat)} {n : Nat}
    (hwf : WfT l idx n) {k : K} (h : lookupIdx k idx = none) :
    k ∉ keysOf l := by
  intro hmem
  rcases List.mem_map.mp hmem with ⟨q, hq, hkq⟩
  have hcov := hwf.2.2.2.2.1 q hq
  rw [hkq, h] at hcov
  simp at hcov

theorem WfT_cons {l : List (Node K V)} {idx : List (K × Nat)} {n : Nat}
    (hwf : WfT l idx n) {key : K} (habs : lookupIdx key idx = none)
    (v : V) (t : Nat) :
    WfT ((n, ⟨key, v, t⟩) :: l) ((key, n) :: idx) (n + 1) := by
  have hknotin : key ∉ keysOf l := WfT_key_not_mem hwf habs
  obtain ⟨hkn, hin, hxn, hloc, hcov, hlt⟩ := hwf
  have hxabs : key ∉ idxKeys idx := (lookupIdx_eq_none_iff key idx).mp habs
  have hnid : n ∉ idsOf l := by
    intro hmem
    rcases List.mem_map.mp hmem with ⟨q, hq, hq1⟩
    have := hlt q hq
    omega
  refine ⟨?_, ?_, ?_, ?_, ?_, ?_⟩
  · simp only [keysOf, List.map_cons, List.nodup_cons]
    exact ⟨hknotin, hkn⟩
  · simp only [idsOf, List.map_cons, List.nodup_cons]
    exact ⟨hnid, hin⟩
  · simp only [idxKeys, List.map_cons, List.nodup_cons]
    exact ⟨hxabs, hxn⟩
  · intro p hp
    rcases List.mem_cons.mp hp with hp | hp
    · rw [hp]
      simp [findNode]
    · have h1 := hloc p hp
      have hp2 : p.2 ∈ idsOf l := by
        rw [← findNode_isSome_iff]
        cases hfe : findNode p.2 l with
        | none =>
            rw [hfe] at h1
            simp at h1
        | some e => simp
      have hp2n : p.2 < n := by
        rcases List.mem_map.mp hp2 with ⟨q, hq, hq1⟩
        have := hlt q hq
        omega
      have hne : ¬ (n = p.2) := by omega
      simp only [findNode, if_neg hne]
      exact h1
  · intro q hq
    rcases List.mem_cons.mp hq with hq | hq
    · rw [hq]
      simp [lookupIdx]
    · have hne : ¬ (key = q.2.key) := by
        intro h
        apply hknotin
        rw [h]
        exact List.mem_map_of_mem (fun r => r.2.key) hq
      simp only [lookupIdx, if_neg hne]
      exact hcov q hq
  · intro q hq
    rcases List.mem_cons.mp hq with hq | hq
    · rw [hq]
      simp
    · have := hlt q hq
      omega

theorem put_hit_eq {c : ThreadSafeLRUCache K V} {key : K} {id : Nat}
    (h : lookupIdx key c.index_ = some id) (v : V) (t d : Nat) :
    c.put key v t d =
      (true, { c with
        lru_list_ := move_to_front_nolock id (updateValue id v c.lru_list_),
        total_access_time_ns_ := c.total_access_time_ns_ + d }) := by
  unfold ThreadSafeLRUCache.put
  rw [h]

theorem put_miss_eq {c : ThreadSafeLRUCache K V} {key : K}
    (h : lookupIdx key c.index_ = none) (v : V) (t d : Nat) :
    c.put key v t d =
      (true, { c with
        lru_list_ := (c.next_node_id, ⟨key, v, t⟩) ::
          (evict_if_needed_nolock c.capacity_ c.lru_list_ c.index_).1,
        index_ := (key, c.next_node_id) ::
          (evict_if_needed_nolock c.capacity_ c.lru_list_ c.index_).2,
        next_node_id := c.next_node_id + 1,
        total_access_time_ns_ := c.total_access_time_ns_ + d }) := by
  unfold ThreadSafeLRUCache.put
  rw [h]

theorem get_hit_eq {c : ThreadSafeLRUCache K V} {key : K} {id : Nat}
    (h : lookupIdx key c.index_ = some id) (d : Nat) :
    c.get key d =
      ((findNode id (move_to_front_nolock id c.lru_list_)).map
         (fun e => e.value),
       { c with lru_list_ := move_to_front_nolock id c.lru_list_,
                hit_count_ := c.hit_count_ + 1,
                total_access_time_ns_ := c.total_access_time_ns_ + d }) := by
  unfold ThreadSafeLRUCache.get
  rw [h]

theorem get_miss_eq {c : ThreadSafeLRUCache K V} {key : K}
    (h : lookupIdx key c.index_ = none) (d : Nat) :
    c.get key d =
      (none, { c with miss_count_ := c.miss_count_ + 1,
                      total_access_time_ns_ := c.total_access_time_ns_ + d }) := by
  unfold ThreadSafeLRUCache.get
  rw [h]

theorem remove_hit_eq {c : ThreadSafeLRUCache K V} {key : K} {id : Nat}
    (h : lookupIdx key c.index_ = some id) :
    c.remove key =
      (true, { c with lru_list_ := eraseNode id c.lru_list_,
                      index_ := eraseKey key c.index_ }) := by
  unfold ThreadSafeLRUCache.remove
  rw [h]

theorem remove_miss_eq {c : ThreadSafeLRUCache K V} {key : K}
    (h : lookupIdx key c.index_ = none) :
    c.remove key = (false, c) := by
  unfold ThreadSafeLRUCache.remove
  rw [h]

end EqLemmas

section InvLemmas

variable [DecidableEq K]

/-- The reachable-state invariant: structural consistency, the size bound, and
the positive capacity established by the constructor. -/
def Inv (c : ThreadSafeLRUCache K V) : Prop :=
  Wf c ∧ c.lru_list_.length ≤ c.capacity_ ∧ 0 < c.capacity_

theorem WfT_evict_le {l : List (Node K V)} {idx : List (K × Nat)}
    {n cap : Nat} (hwf : WfT l idx n) (hcap : 0 < cap) (hsz : l.length ≤ cap) :
    WfT (evict_if_needed_nolock cap l idx).1
        (evict_if_needed_nolock cap l idx).2 n
    ∧ (evict_if_needed_nolock cap l idx).1.length < cap
    ∧ ∀ k, lookupIdx k idx = none →
        lookupIdx k (evict_if_needed_nolock cap l idx).2 = none := by
  by_cases hfull : l.length < cap
  · rw [evict_of_lt _ hfull]
    exact ⟨hwf, hfull, fun k h => h⟩
  · have hEq : l.length = cap := by omega
    have hne : l ≠ [] := by
      intro h
      rw [h] at hEq
      simp at hEq
      omega
    rw [evict_of_eq _ hcap hne hEq]
    have hlast := l.getLast_mem hne
    have hlk := WfT_lookup_of_mem hwf hlast
    have hwf2 := WfT_erase hwf hlk
    rw [eraseNode_getLast_eq_dropLast hwf.2.1 hne] at hwf2
    refine ⟨hwf2, ?_, ?_⟩
    · simp only [List.length_dropLast]
      omega
    · intro k h
      exact lookupIdx_eraseKey_none h _

theorem Inv_put {c : ThreadSafeLRUCache K V} (h : Inv c) (k : K) (v : V)
    (t d : Nat) : Inv (c.put k v t d).2 := by
  obtain ⟨hwf, hsz, hcap⟩ := h
  cases hlk : lookupIdx k c.index_ with
  | some id =>
      rw [put_hit_eq hlk]
      refine ⟨?_, ?_, hcap⟩
      · exact WfT_move_to_front (WfT_updateValue hwf id v) id
      · show (move_to_front_nolock id (updateValue id v c.lru_list_)).length ≤
          c.capacity_
        rw [length_move_to_front, length_updateValue]
        exact hsz
  | none =>
      rw [put_miss_eq hlk]
      obtain ⟨hwfe, hlen, habs⟩ := WfT_evict_le hwf hcap hsz
      refine ⟨?_, ?_, hcap⟩
      · exact WfT_cons hwfe (habs k hlk) v t
      · show ((c.next_node_id, _) ::
            (evict_if_needed_nolock c.capacity_ c.lru_list_ c.index_).1).length
            ≤ c.capacity_
        rw [List.length_cons]
        omega

theorem Inv_get {c : ThreadSafeLRUCache K V} (h : Inv c) (k : K) (d : Nat) :
    Inv (c.get k d).2 := by
  obtain ⟨hwf, hsz, hcap⟩ := h
  cases hlk : lookupIdx k c.index_ with
  | some id =>
      rw [get_hit_eq hlk]
      refine ⟨?_, ?_, hcap⟩
      · exact WfT_move_to_front hwf id
      · show (move_to_front_nolock id c.lru_list_).length ≤ c.capacity_
        rw [length_move_to_front]
        exact hsz
  | none =>
      rw [get_miss_eq hlk]
      exact ⟨hwf, hsz, hcap⟩

theorem Inv_remove {c : ThreadSafeLRUCache K V} (h : Inv c) (k : K) :
    Inv (c.remove k).2 := by
  obtain ⟨hwf, hsz, hcap⟩ := h
  cases hlk : lookupIdx k c.index_ with
  | some id =>
      rw [remove_hit_eq hlk]
      refine ⟨?_, ?_, hcap⟩
      · exact WfT_erase hwf hlk
      · show (eraseNode id c.lru_list_).length ≤ c.capacity_
        exact le_trans (eraseNode_sublist id c.lru_list_).length_le hsz
  | none =>
      rw [remove_miss_eq hlk]
      exact ⟨hwf, hsz, hcap⟩

theorem WfT_nil (idx_n : Nat) : WfT ([] : List (Node K V)) [] idx_n := by
  refine ⟨?_, ?_, ?_, ?_, ?_, ?_⟩ <;> simp [keysOf, idsOf, idxKeys]

theorem Inv_clear {c : ThreadSafeLRUCache K V} (h : Inv c) :
    Inv c.clear := by
  obtain ⟨hwf, hsz, hcap⟩ := h
  exact ⟨WfT_nil c.next_node_id, by simp [ThreadSafeLRUCache.clear], hcap⟩

theorem Inv_applyOp {c : ThreadSafeLRUCache K V} (h : Inv c) (op : Op K V) :
    Inv (applyOp c op) := by
  cases op with
  | put k v t d => exact Inv_put h k v t d
  | get k d => exact Inv_get h k d
  | remove k => exact Inv_remove h k
  | clear => exact Inv_clear h
  | contains k => exact h
  | reset_metrics => exact h

theorem Inv_runOps {c : ThreadSafeLRUCache K V} (h : Inv c)
    (ops : List (Op K V)) : Inv (runOps c ops) := by
  induction ops generalizing c with
  | nil => exact h
  | cons op rest ih => exact ih (Inv_applyOp h op)

theorem Inv_initCache (K V : Type) [DecidableEq K] {C : Nat} (hC : 0 < C) :
    Inv (ThreadSafeLRUCache.initCache K V C) := by
  exact ⟨WfT_nil 0, by simp [ThreadSafeLRUCache.initCache], hC⟩

end InvLemmas

section MetricsLemmas

variable [DecidableEq K]

/-- Number of `get` operations seen before hitting a `reset_metrics`, scanning
the given list (most recent operation first). -/
def countRecentGets : List (Op K V) → Nat
  | [] => 0
  | .reset_metrics :: _ => 0
  | .get _ _ :: rest => countRecentGets rest + 1
  | .put _ _ _ _ :: rest => countRecentGets rest
  | .remove _ :: rest => countRecentGets rest
  | .clear :: rest => countRecentGets rest
  | .contains _ :: rest => countRecentGets rest

/-- Number of `get` calls issued since the last `reset_metrics` (or since the
start, when no reset occurs) in a list of operations given oldest first. -/
def gets_since_reset (ops : List (Op K V)) : Nat :=
  countRecentGets ops.reverse

theorem runOps_append (c : ThreadSafeLRUCache K V) (ops : List (Op K V))
    (op : Op K V) : runOps c (ops ++ [op]) = applyOp (runOps c ops) op := by
  induction ops generalizing c with
  | nil => rfl
  | cons op' rest ih =>
      show runOps (applyOp c op') (rest ++ [op]) = _
      exact ih (applyOp c op')

theorem gets_since_reset_append (ops : List (Op K V)) (op : Op K V) :
    gets_since_reset (ops ++ [op]) =
      match op with
      | .get _ _ => gets_since_reset ops + 1
      | .reset_metrics => 0
      | _ => gets_since_reset ops := by
  unfold gets_since_reset
  rw [List.reverse_append]
  cases op <;> simp [countRecentGets]

theorem hit_miss_applyOp (c : ThreadSafeLRUCache K V) (op : Op K V) :
    (applyOp c op).hit_count_ + (applyOp c op).miss_count_ =
      match op with
      | .get _ _ => c.hit_count_ + c.miss_count_ + 1
      | .reset_metrics => 0
      | _ => c.hit_count_ + c.miss_count_ := by
  cases op with
  | get k d =>
      show (c.get k d).2.hit_count_ + (c.get k d).2.miss_count_ = _
      cases hlk : lookupIdx k c.index_ with
      | some id =>
          rw [get_hit_eq hlk]
          show c.hit_count_ + 1 + c.miss_count_ = c.hit_count_ + c.miss_count_ + 1
          omega
      | none =>
          rw [get_miss_eq hlk]
          show c.hit_count_ + (c.miss_count_ + 1) = c.hit_count_ + c.miss_count_ + 1
          omega
  | put k v t d =>
      show (c.put k v t d).2.hit_count_ + (c.put k v t d).2.miss_count_ = _
      cases hlk : lookupIdx k c.index_ with
      | some id => rw [put_hit_eq hlk]
      | none => rw [put_miss_eq hlk]
  | remove k =>
      show (c.remove k).2.hit_count_ + (c.remove k).2.miss_count_ = _
      cases hlk : lookupIdx k c.index_ with
      | some id => rw [remove_hit_eq hlk]
      | none => rw [remove_miss_eq hlk]
  | clear => rfl
  | contains k => rfl
  | reset_metrics => rfl

theorem hit_miss_runOps (C : Nat) (ops : List (Op K V)) :
    (runOps (ThreadSafeLRUCache.initCache K V C) ops).hit_count_ +
      (runOps (ThreadSafeLRUCache.initCache K V C) ops).miss_count_ =
      gets_since_reset ops := by
  induction ops using List.reverseRecOn with
  | nil => rfl
  | append_singleton ops op ih =>
      rw [runOps_append, gets_since_reset_append, hit_miss_applyOp]
      cases op <;> simp only [ih]

end MetricsLemmas

section ClaimHelpers

variable [DecidableEq K]

theorem construct_ok {K V : Type} {C : Nat} {c0 : ThreadSafeLRUCache K V}
    (h : ThreadSafeLRUCache.construct K V C = .ok c0) :
    0 < C ∧ c0 = ThreadSafeLRUCache.initCache K V C := by
  unfold ThreadSafeLRUCache.construct at h
  by_cases hC : C = 0
  · rw [if_pos hC] at h
    simp at h
  · rw [if_neg hC] at h
    injection h with h2
    exact ⟨Nat.pos_of_ne_zero hC, h2.symm⟩

theorem map_dropLast_eq {α β : Type} (f : α → β) :
    ∀ l : List α, l.dropLast.map f = (l.map f).dropLast
  | [] => rfl
  | [a] => rfl
  | a :: b :: t => by
      simp only [List.dropLast_cons₂, List.map_cons]
      rw [map_dropLast_eq f (b :: t)]
      simp [List.dropLast_cons₂]

theorem WfT_mem_keys_iff {l : List (Node K V)} {idx : List (K × Nat)}
    {n : Nat} (hwf : WfT l idx n) (k : K) :
    k ∈ idxKeys idx ↔ k ∈ keysOf l := by
  constructor
  · intro hmem
    have hsome : (lookupIdx k idx).isSome = true :=
      (lookupIdx_isSome_iff k idx).mpr hmem
    cases hlk : lookupIdx k idx with
    | none => rw [hlk] at hsome; simp at hsome
    | some id =>
        have h := hwf.2.2.2.1 _ (lookupIdx_eq_some_mem hlk)
        cases hfe : findNode id l with
        | none => rw [hfe] at h; simp at h
        | some e =>
            rw [hfe] at h
            simp only [Option.map_some] at h
            injection h with h2
            rw [← h2]
            exact List.mem_map_of_mem (fun q => q.2.key) (findNode_eq_some_mem hfe)
  · intro hmem
    rcases List.mem_map.mp hmem with ⟨q, hq, hkq⟩
    have hsome := hwf.2.2.2.2.1 q hq
    rw [hkq] at hsome
    exact (lookupIdx_isSome_iff k idx).mp hsome

theorem WfT_findNode_of_lookup {l : List (Node K V)} {idx : List (K × Nat)}
    {n : Nat} (hwf : WfT l idx n) {k : K} {id : Nat}
    (hlk : lookupIdx k idx = some id) :
    ∃ e, findNode id l = some e ∧ e.key = k := by
  have h := hwf.2.2.2.1 _ (lookupIdx_eq_some_mem hlk)
  cases hfe : findNode id l with
  | none => rw [hfe] at h; simp at h
  | some e =>
      rw [hfe] at h
      simp only [Option.map_some] at h
      injection h with h2
      exact ⟨e, rfl, h2⟩

theorem contains_false_lookup {c : ThreadSafeLRUCache K V} {k : K}
    (h : c.contains k = false) : lookupIdx k c.index_ = none := by
  unfold ThreadSafeLRUCache.contains at h
  cases hlk : lookupIdx k c.index_ with
  | none => rfl
  | some id => rw [hlk] at h; simp at h

theorem contains_true_lookup {c : ThreadSafeLRUCache K V} {k : K}
    (h : c.contains k = true) : ∃ id, lookupIdx k c.index_ = some id := by
  unfold ThreadSafeLRUCache.contains at h
  cases hlk : lookupIdx k c.index_ with
  | none => rw [hlk] at h; simp at h
  | some id => exact ⟨id, rfl⟩

end ClaimHelpers

/-- C1: for every capacity `C > 0` (equivalently, for a cache obtained from a
successful construction) and every finite sequence of put, get, remove, clear
(and the read-only contains / reset_metrics) operations, after each operation
`0 ≤ size() ≤ capacity()` holds. -/
theorem capacity_invariant (K V : Type) [DecidableEq K] (C : Nat)
    (c0 : ThreadSafeLRUCache K V)
    (hc0 : ThreadSafeLRUCache.construct K V C = .ok c0)
    (ops : List (Op K V)) :
    0 ≤ (runOps c0 ops).size ∧
    (runOps c0 ops).size ≤ (runOps c0 ops).capacity := by
  obtain ⟨hC, hinit⟩ := construct_ok hc0
  subst hinit
  have h := Inv_runOps (Inv_initCache K V hC) ops
  exact ⟨Nat.zero_le _, h.2.1⟩

/-- Witness for C1 at capacity 2 and a six-operation sequence that exercises
insertion, eviction, a hit, a removal, and a clear. -/
theorem capacity_invariant_witness :
    (ThreadSafeLRUCache.construct Nat Nat 2 =
       .ok (ThreadSafeLRUCache.initCache Nat Nat 2)) ∧
    (0 ≤ (runOps (ThreadSafeLRUCache.initCache Nat Nat 2)
        [Op.put 1 10 0 0, Op.put 2 20 1 0, Op.put 3 30 2 0, Op.get 1 0,
         Op.remove 2, Op.clear]).size ∧
     (runOps (ThreadSafeLRUCache.initCache Nat Nat 2)
        [Op.put 1 10 0 0, Op.put 2 20 1 0, Op.put 3 30 2 0, Op.get 1 0,
         Op.remove 2, Op.clear]).size ≤
     (runOps (ThreadSafeLRUCache.initCache Nat Nat 2)
        [Op.put 1 10 0 0, Op.put 2 20 1 0, Op.put 3 30 2 0, Op.get 1 0,
         Op.remove 2, Op.clear]).capacity) :=
  ⟨rfl, capacity_invariant Nat Nat 2 _ rfl _⟩

/-- C3: after every operation sequence from a successful construction, the
index keys and the sequence keys coincide as sets, the sequence holds no
duplicate keys, and every stored locator dereferences to the node currently
holding its key. -/
theorem index_sequence_consistency (K V : Type) [DecidableEq K] (C : Nat)
    (c0 : ThreadSafeLRUCache K V)
    (hc0 : ThreadSafeLRUCache.construct K V C = .ok c0)
    (ops : List (Op K V)) :
    (keysOf (runOps c0 ops).lru_list_).Nodup ∧
    (∀ k, k ∈ idxKeys (runOps c0 ops).index_ ↔
       k ∈ keysOf (runOps c0 ops).lru_list_) ∧
    (∀ k id, lookupIdx k (runOps c0 ops).index_ = some id →
       (findNode id (runOps c0 ops).lru_list_).map (fun e => e.key) = some k) := by
  obtain ⟨hC, hinit⟩ := construct_ok hc0
  subst hinit
  have h := (Inv_runOps (Inv_initCache K V hC) ops).1
  refine ⟨h.1, fun k => WfT_mem_keys_iff h k, fun k id hlk => ?_⟩
  exact h.2.2.2.1 _ (lookupIdx_eq_some_mem hlk)

/-- Witness for C3 on a capacity-2 cache after inserts, an evicting insert, a
hit, and a removal. -/
theorem index_sequence_consistency_witness :
    (ThreadSafeLRUCache.construct Nat Nat 2 =
       .ok (ThreadSafeLRUCache.initCache Nat Nat 2)) ∧
    ((keysOf (runOps (ThreadSafeLRUCache.initCache Nat Nat 2)
        [Op.put 1 10 0 0, Op.put 2 20 1 0, Op.get 2 0, Op.put 3 30 2 0,
         Op.remove 2]).lru_list_).Nodup ∧
     (∀ k, k ∈ idxKeys (runOps (ThreadSafeLRUCache.initCache Nat Nat 2)
        [Op.put 1 10 0 0, Op.put 2 20 1 0, Op.get 2 0, Op.put 3 30 2 0,
         Op.remove 2]).index_ ↔
        k ∈ keysOf (runOps (ThreadSafeLRUCache.initCache Nat Nat 2)
        [Op.put 1 10 0 0, Op.put 2 20 1 0, Op.get 2 0, Op.put 3 30 2 0,
         Op.remove 2]).lru_list_) ∧
     (∀ k id, lookupIdx k (runOps (ThreadSafeLRUCache.initCache Nat Nat 2)
        [Op.put 1 10 0 0, Op.put 2 20 1 0, Op.get 2 0, Op.put 3 30 2 0,
         Op.remove 2]).index_ = some id →
        (findNode id (runOps (ThreadSafeLRUCache.initCache Nat Nat 2)
        [Op.put 1 10 0 0, Op.put 2 20 1 0, Op.get 2 0, Op.put 3 30 2 0,
         Op.remove 2]).lru_list_).map (fun e => e.key) = some k)) :=
  ⟨rfl, index_sequence_consistency Nat Nat 2 _ rfl _⟩

/-- C4: hits + misses equals the number of gets since the last reset_metrics
(or since construction); each get bumps exactly one of the two counters by
one; put, remove, clear, and contains never change the hit or miss counter. -/
theorem metrics_conservation (K V : Type) [DecidableEq K] (C : Nat)
    (ops : List (Op K V)) (c : ThreadSafeLRUCache K V) (k : K) (v : V)
    (t d : Nat) :
    ((runOps (ThreadSafeLRUCache.initCache K V C) ops).hit_count_ +
       (runOps (ThreadSafeLRUCache.initCache K V C) ops).miss_count_ =
       gets_since_reset ops) ∧
    (((c.get k d).2.hit_count_ = c.hit_count_ + 1 ∧
      (c.get k d).2.miss_count_ = c.miss_count_) ∨
     ((c.get k d).2.hit_count_ = c.hit_count_ ∧
      (c.get k d).2.miss_count_ = c.miss_count_ + 1)) ∧
    ((c.put k v t d).2.hit_count_ = c.hit_count_ ∧
     (c.put k v t d).2.miss_count_ = c.miss_count_) ∧
    ((c.remove k).2.hit_count_ = c.hit_count_ ∧
     (c.remove k).2.miss_count_ = c.miss_count_) ∧
    (c.clear.hit_count_ = c.hit_count_ ∧
     c.clear.miss_count_ = c.miss_count_) ∧
    (applyOp c (Op.contains k) = c) := by
  refine ⟨hit_miss_runOps C ops, ?_, ?_, ?_, ⟨rfl, rfl⟩, rfl⟩
  · cases hlk : lookupIdx k c.index_ with
    | some id =>
        rw [get_hit_eq hlk]
        exact .inl ⟨rfl, rfl⟩
    | none =>
        rw [get_miss_eq hlk]
        exact .inr ⟨rfl, rfl⟩
  · cases hlk : lookupIdx k c.index_ with
    | some id =>
        rw [put_hit_eq hlk]
        exact ⟨rfl, rfl⟩
    | none =>
        rw [put_miss_eq hlk]
        exact ⟨rfl, rfl⟩
  · cases hlk : lookupIdx k c.index_ with
    | some id =>
        rw [remove_hit_eq hlk]
        exact ⟨rfl, rfl⟩
    | none =>
        rw [remove_miss_eq hlk]
        exact ⟨rfl, rfl⟩

/-- C5: constructing with capacity 0 fails with the single CacheException
error, any positive capacity constructs successfully with exactly that
capacity, and every construction either succeeds or fails with that one
error kind. -/
theorem zero_capacity_rejection (K V : Type) (C : Nat) (hC : 0 < C) :
    (ThreadSafeLRUCache.construct K V 0 =
       .error "Cache capacity must be greater than 0") ∧
    (∃ c0, ThreadSafeLRUCache.construct K V C = .ok c0 ∧ c0.capacity = C) ∧
    (∀ C' : Nat, (∃ c0, ThreadSafeLRUCache.construct K V C' = .ok c0) ∨
       ThreadSafeLRUCache.construct K V C' =
         .error "Cache capacity must be greater than 0") := by
  refine ⟨rfl, ⟨ThreadSafeLRUCache.initCache K V C, ?_, rfl⟩, ?_⟩
  · unfold ThreadSafeLRUCache.construct
    rw [if_neg (by omega)]
  · intro C'
    by_cases h : C' = 0
    · right
      subst h
      rfl
    · left
      refine ⟨ThreadSafeLRUCache.initCache K V C', ?_⟩
      unfold ThreadSafeLRUCache.construct
      rw [if_neg h]

/-- Witness for C5 at capacity 1. -/
theorem zero_capacity_rejection_witness :
    0 < 1 ∧
    ((ThreadSafeLRUCache.construct Nat Nat 0 =
        .error "Cache capacity must be greater than 0") ∧
     (∃ c0, ThreadSafeLRUCache.construct Nat Nat 1 = .ok c0 ∧
        c0.capacity = 1) ∧
     (∀ C' : Nat, (∃ c0, ThreadSafeLRUCache.construct Nat Nat C' = .ok c0) ∨
        ThreadSafeLRUCache.construct Nat Nat C' =
          .error "Cache capacity must be greater than 0")) :=
  ⟨by decide, zero_capacity_rejection Nat Nat 1 (by decide)⟩

/-- C8: after clear, size is 0, empty is true, no key is contained, and the
hit counter, miss counter, and latency accumulator are untouched. -/
theorem clear_total (K V : Type) [DecidableEq K] (c : ThreadSafeLRUCache K V)
    (k : K) :
    c.clear.size = 0 ∧ c.clear.empty = true ∧ c.clear.contains k = false ∧
    c.clear.hit_count_ = c.hit_count_ ∧ c.clear.miss_count_ = c.miss_count_ ∧
    c.clear.total_access_time_ns_ = c.total_access_time_ns_ :=
  ⟨rfl, rfl, rfl, rfl, rfl, rfl⟩

/-- C2: on a well-formed full cache, putting an absent key evicts exactly the
least-recently-used (tail) entry — the resulting key sequence is the new key
followed by every old key except the last, and the old tail key is no longer
present — while a hit on get moves the accessed key to the head of the
recency order. -/
theorem lru_eviction_order (K V : Type) [DecidableEq K]
    (c : ThreadSafeLRUCache K V) (knew k : K) (v : V) (t d d2 id : Nat)
    (hwf : Wf c) (hcap : 0 < c.capacity) (hfull : c.size = c.capacity)
    (habs : lookupIdx knew c.index_ = none)
    (hk : lookupIdx k c.index_ = some id) :
    (keysOf (c.put knew v t d).2.lru_list_ =
       knew :: (keysOf c.lru_list_).dropLast) ∧
    (∀ lk, (keysOf c.lru_list_).getLast? = some lk →
       lk ∉ keysOf (c.put knew v t d).2.lru_list_) ∧
    ((keysOf (c.get k d2).2.lru_list_).head? = some k) := by
  have hcap' : 0 < c.capacity_ := hcap
  have hEq : c.lru_list_.length = c.capacity_ := hfull
  have hne : c.lru_list_ ≠ [] := by
    intro h
    rw [h] at hEq
    simp at hEq
    omega
  have hkeys : keysOf (c.put knew v t d).2.lru_list_ =
      knew :: (keysOf c.lru_list_).dropLast := by
    rw [put_miss_eq habs]
    show keysOf ((c.next_node_id, ⟨knew, v, t⟩) ::
      (evict_if_needed_nolock c.capacity_ c.lru_list_ c.index_).1) = _
    rw [evict_of_eq c.index_ hcap' hne hEq]
    simp only [keysOf, List.map_cons]
    rw [map_dropLast_eq]
  refine ⟨hkeys, ?_, ?_⟩
  · intro lk hlk'
    have hklne : keysOf c.lru_list_ ≠ [] := by
      intro h
      apply hne
      unfold keysOf at h
      exact List.map_eq_nil_iff.mp h
    rw [List.getLast?_eq_getLast_of_ne_nil hklne] at hlk'
    injection hlk' with hlkeq
    rw [hkeys]
    intro hmem
    rcases List.mem_cons.mp hmem with hmem | hmem
    · apply WfT_key_not_mem hwf habs
      rw [← hmem, ← hlkeq]
      exact (keysOf c.lru_list_).getLast_mem hklne
    · have hnd : (keysOf c.lru_list_).Nodup := hwf.1
      have hdec := List.dropLast_append_getLast hklne
      rw [← hdec] at hnd
      have hdisj := List.disjoint_of_nodup_append hnd
      apply hdisj hmem
      rw [hlkeq]
      exact List.mem_singleton_self lk
  · rw [get_hit_eq hk]
    obtain ⟨e, hfe, hek⟩ := WfT_findNode_of_lookup hwf hk
    show (keysOf (move_to_front_nolock id c.lru_list_)).head? = some k
    unfold move_to_front_nolock
    rw [hfe]
    simp [keysOf, hek]

/-- Witness for C2: the spec's scenario — capacity 3, put 1, put 2, put 3,
get 1, then put 4 evicts exactly key 2 and leaves keys 4, 1, 3. -/
theorem lru_eviction_order_witness :
    Wf (runOps (ThreadSafeLRUCache.initCache Nat Nat 3)
        [Op.put 1 10 0 0, Op.put 2 20 1 0, Op.put 3 30 2 0, Op.get 1 0]) ∧
    0 < (runOps (ThreadSafeLRUCache.initCache Nat Nat 3)
        [Op.put 1 10 0 0, Op.put 2 20 1 0, Op.put 3 30 2 0, Op.get 1 0]).capacity ∧
    (runOps (ThreadSafeLRUCache.initCache Nat Nat 3)
        [Op.put 1 10 0 0, Op.put 2 20 1 0, Op.put 3 30 2 0, Op.get 1 0]).size =
      (runOps (ThreadSafeLRUCache.initCache Nat Nat 3)
        [Op.put 1 10 0 0, Op.put 2 20 1 0, Op.put 3 30 2 0, Op.get 1 0]).capacity ∧
    lookupIdx 4 (runOps (ThreadSafeLRUCache.initCache Nat Nat 3)
        [Op.put 1 10 0 0, Op.put 2 20 1 0, Op.put 3 30 2 0, Op.get 1 0]).index_ = none ∧
    lookupIdx 1 (runOps (ThreadSafeLRUCache.initCache Nat Nat 3)
        [Op.put 1 10 0 0, Op.put 2 20 1 0, Op.put 3 30 2 0, Op.get 1 0]).index_ = some 0 ∧
    ((keysOf ((runOps (ThreadSafeLRUCache.initCache Nat Nat 3)
        [Op.put 1 10 0 0, Op.put 2 20 1 0, Op.put 3 30 2 0, Op.get 1 0]).put
          4 40 3 0).2.lru_list_ =
       4 :: (keysOf (runOps (ThreadSafeLRUCache.initCache Nat Nat 3)
        [Op.put 1 10 0 0, Op.put 2 20 1 0, Op.put 3 30 2 0, Op.get 1 0]).lru_list_).dropLast) ∧
     (∀ lk, (keysOf (runOps (ThreadSafeLRUCache.initCache Nat Nat 3)
        [Op.put 1 10 0 0, Op.put 2 20 1 0, Op.put 3 30 2 0, Op.get 1 0]).lru_list_).getLast? = some lk →
        lk ∉ keysOf ((runOps (ThreadSafeLRUCache.initCache Nat Nat 3)
        [Op.put 1 10 0 0, Op.put 2 20 1 0, Op.put 3 30 2 0, Op.get 1 0]).put
          4 40 3 0).2.lru_list_) ∧
     ((keysOf ((runOps (ThreadSafeLRUCache.initCache Nat Nat 3)
        [Op.put 1 10 0 0, Op.put 2 20 1 0, Op.put 3 30 2 0, Op.get 1 0]).get
          1 0).2.lru_list_).head? = some 1)) ∧
    keysOf ((runOps (ThreadSafeLRUCache.initCache Nat Nat 3)
        [Op.put 1 10 0 0, Op.put 2 20 1 0, Op.put 3 30 2 0, Op.get 1 0]).put
          4 40 3 0).2.lru_list_ = [4, 1, 3] ∧
    (2 : Nat) ∉ keysOf ((runOps (ThreadSafeLRUCache.initCache Nat Nat 3)
        [Op.put 1 10 0 0, Op.put 2 20 1 0, Op.put 3 30 2 0, Op.get 1 0]).put
          4 40 3 0).2.lru_list_ :=
  ⟨by decide, by decide, by decide, by decide, by decide,
   lru_eviction_order Nat Nat _ 4 1 40 3 0 0 0 (by decide) (by decide)
     (by decide) (by decide) (by decide),
   by decide, by decide⟩

/-- C6: on an absent key, remove returns false and leaves the state exactly
unchanged, and get returns none, bumps only the miss counter, and leaves the
sequence and index intact; on a present key, remove returns true and deletes
the key from both the sequence and the index. -/
theorem absent_present_key_behavior (K V : Type) [DecidableEq K]
    (c : ThreadSafeLRUCache K V) (ka kp : K) (d : Nat) (hwf : Wf c)
    (habs : c.contains ka = false) (hpres : c.contains kp = true) :
    (c.remove ka = (false, c)) ∧
    ((c.get ka d).1 = none) ∧
    ((c.get ka d).2.miss_count_ = c.miss_count_ + 1) ∧
    ((c.get ka d).2.hit_count_ = c.hit_count_) ∧
    ((c.get ka d).2.lru_list_ = c.lru_list_) ∧
    ((c.get ka d).2.index_ = c.index_) ∧
    ((c.remove kp).1 = true) ∧
    (kp ∉ keysOf (c.remove kp).2.lru_list_) ∧
    (kp ∉ idxKeys (c.remove kp).2.index_) := by
  have hlka := contains_false_lookup habs
  obtain ⟨id, hlkp⟩ := contains_true_lookup hpres
  rw [remove_miss_eq hlka, get_miss_eq hlka, remove_hit_eq hlkp]
  refine ⟨rfl, rfl, rfl, rfl, rfl, rfl, rfl, ?_, ?_⟩
  · intro hmem
    rcases List.mem_map.mp hmem with ⟨q, hq, hkq⟩
    obtain ⟨hql, hqid⟩ := mem_eraseNode_ne hwf.2.1 hq
    have hlq := WfT_lookup_of_mem hwf hql
    rw [hkq, hlkp] at hlq
    injection hlq with h2
    exact hqid h2.symm
  · intro hmem
    rcases List.mem_map.mp hmem with ⟨p, hp, hp1⟩
    obtain ⟨hpidx, hpk⟩ := mem_eraseKey_ne hwf.2.2.1 hp
    exact hpk hp1

/-- Witness for C6 on a capacity-2 cache holding keys 1 and 2: key 5 is
absent, key 1 is present. -/
theorem absent_present_key_behavior_witness :
    Wf (runOps (ThreadSafeLRUCache.initCache Nat Nat 2)
        [Op.put 1 10 0 0, Op.put 2 20 1 0]) ∧
    (runOps (ThreadSafeLRUCache.initCache Nat Nat 2)
        [Op.put 1 10 0 0, Op.put 2 20 1 0]).contains 5 = false ∧
    (runOps (ThreadSafeLRUCache.initCache Nat Nat 2)
        [Op.put 1 10 0 0, Op.put 2 20 1 0]).contains 1 = true ∧
    (((runOps (ThreadSafeLRUCache.initCache Nat Nat 2)
        [Op.put 1 10 0 0, Op.put 2 20 1 0]).remove 5 =
       (false, runOps (ThreadSafeLRUCache.initCache Nat Nat 2)
        [Op.put 1 10 0 0, Op.put 2 20 1 0])) ∧
     (((runOps (ThreadSafeLRUCache.initCache Nat Nat 2)
        [Op.put 1 10 0 0, Op.put 2 20 1 0]).get 5 7).1 = none) ∧
     (((runOps (ThreadSafeLRUCache.initCache Nat Nat 2)
        [Op.put 1 10 0 0, Op.put 2 20 1 0]).get 5 7).2.miss_count_ =
       (runOps (ThreadSafeLRUCache.initCache Nat Nat 2)
        [Op.put 1 10 0 0, Op.put 2 20 1 0]).miss_count_ + 1) ∧
     (((runOps (ThreadSafeLRUCache.initCache Nat Nat 2)
        [Op.put 1 10 0 0, Op.put 2 20 1 0]).get 5 7).2.hit_count_ =
       (runOps (ThreadSafeLRUCache.initCache Nat Nat 2)
        [Op.put 1 10 0 0, Op.put 2 20 1 0]).hit_count_) ∧
     (((runOps (ThreadSafeLRUCache.initCache Nat Nat 2)
        [Op.put 1 10 0 0, Op.put 2 20 1 0]).get 5 7).2.lru_list_ =
       (runOps (ThreadSafeLRUCache.initCache Nat Nat 2)
        [Op.put 1 10 0 0, Op.put 2 20 1 0]).lru_list_) ∧
     (((runOps (ThreadSafeLRUCache.initCache Nat Nat 2)
        [Op.put 1 10 0 0, Op.put 2 20 1 0]).get 5 7).2.index_ =
       (runOps (ThreadSafeLRUCache.initCache Nat Nat 2)
        [Op.put 1 10 0 0, Op.put 2 20 1 0]).index_) ∧
     (((runOps (ThreadSafeLRUCache.initCache Nat Nat 2)
        [Op.put 1 10 0 0, Op.put 2 20 1 0]).remove 1).1 = true) ∧
     ((1 : Nat) ∉ keysOf ((runOps (ThreadSafeLRUCache.initCache Nat Nat 2)
        [Op.put 1 10 0 0, Op.put 2 20 1 0]).remove 1).2.lru_list_) ∧
     ((1 : Nat) ∉ idxKeys ((runOps (ThreadSafeLRUCache.initCache Nat Nat 2)
        [Op.put 1 10 0 0, Op.put 2 20 1 0]).remove 1).2.index_)) :=
  ⟨by decide, by decide, by decide,
   absent_present_key_behavior Nat Nat _ 5 1 7 (by decide) (by decide)
     (by decide)⟩

/-- C7: put always returns true; a put on a present key overwrites the value
in place, moves the entry to the head, keeps the size unchanged, triggers no
eviction (the key sequence is merely permuted), and a subsequent get of that
key returns the new value. -/
theorem put_update_in_place (K V : Type) [DecidableEq K]
    (c : ThreadSafeLRUCache K V) (k : K) (v : V) (t d d2 id : Nat)
    (hwf : Wf c) (hk : lookupIdx k c.index_ = some id) :
    (∀ (c2 : ThreadSafeLRUCache K V) (k2 : K) (v2 : V) (t2 d3 : Nat),
       (c2.put k2 v2 t2 d3).1 = true) ∧
    ((c.put k v t d).2.size = c.size) ∧
    (List.Perm (keysOf (c.put k v t d).2.lru_list_) (keysOf c.lru_list_)) ∧
    ((keysOf (c.put k v t d).2.lru_list_).head? = some k) ∧
    (((c.put k v t d).2.get k d2).1 = some v) := by
  obtain ⟨e, hfe, hek⟩ := WfT_findNode_of_lookup hwf hk
  have hfe2 : findNode id (updateValue id v c.lru_list_) =
      some { e with value := v } := by
    rw [findNode_updateValue]
    simp [hfe]
  have hndupd : (idsOf (updateValue id v c.lru_list_)).Nodup := by
    rw [idsOf_updateValue]
    exact hwf.2.1
  have hnd2 : (idsOf (move_to_front_nolock id
      (updateValue id v c.lru_list_))).Nodup :=
    (idsOf_move_to_front_perm _ _).nodup_iff.mpr hndupd
  refine ⟨?_, ?_, ?_, ?_, ?_⟩
  · intro c2 k2 v2 t2 d3
    cases hlk2 : lookupIdx k2 c2.index_ with
    | some id2 => rw [put_hit_eq hlk2]
    | none => rw [put_miss_eq hlk2]
  · rw [put_hit_eq hk]
    show (move_to_front_nolock id (updateValue id v c.lru_list_)).length =
      c.lru_list_.length
    rw [length_move_to_front, length_updateValue]
  · rw [put_hit_eq hk]
    show List.Perm
      (keysOf (move_to_front_nolock id (updateValue id v c.lru_list_)))
      (keysOf c.lru_list_)
    have hperm := keysOf_move_to_front_perm id (updateValue id v c.lru_list_)
    rw [keysOf_updateValue] at hperm
    exact hperm
  · rw [put_hit_eq hk]
    show (keysOf (move_to_front_nolock id
      (updateValue id v c.lru_list_))).head? = some k
    unfold move_to_front_nolock
    rw [hfe2]
    simp [keysOf, hek]
  · have hkr : lookupIdx k ((c.put k v t d).2).index_ = some id := by
      rw [put_hit_eq hk]
      exact hk
    rw [get_hit_eq hkr, put_hit_eq hk]
    show ((findNode id (move_to_front_nolock id
        (move_to_front_nolock id (updateValue id v c.lru_list_)))).map
        (fun e => e.value)) = some v
    rw [findNode_move_to_front hnd2, findNode_move_to_front hndupd, hfe2]
    rfl

/-- Witness for C7: the spec's scenario — put(1,"one") then put(1,"updated")
leaves size 1 and get(1) returns "updated". -/
theorem put_update_in_place_witness :
    Wf (runOps (ThreadSafeLRUCache.initCache Nat String 2)
        [Op.put 1 "one" 0 0]) ∧
    lookupIdx 1 (runOps (ThreadSafeLRUCache.initCache Nat String 2)
        [Op.put 1 "one" 0 0]).index_ = some 0 ∧
    ((∀ (c2 : ThreadSafeLRUCache Nat String) (k2 : Nat) (v2 : String)
        (t2 d3 : Nat), (c2.put k2 v2 t2 d3).1 = true) ∧
     (((runOps (ThreadSafeLRUCache.initCache Nat String 2)
        [Op.put 1 "one" 0 0]).put 1 "updated" 1 0).2.size =
       (runOps (ThreadSafeLRUCache.initCache Nat String 2)
        [Op.put 1 "one" 0 0]).size) ∧
     (List.Perm (keysOf ((runOps (ThreadSafeLRUCache.initCache Nat String 2)
        [Op.put 1 "one" 0 0]).put 1 "updated" 1 0).2.lru_list_)
       (keysOf (runOps (ThreadSafeLRUCache.initCache Nat String 2)
        [Op.put 1 "one" 0 0]).lru_list_)) ∧
     ((keysOf ((runOps (ThreadSafeLRUCache.initCache Nat String 2)
        [Op.put 1 "one" 0 0]).put 1 "updated" 1 0).2.lru_list_).head? =
       some 1) ∧
     ((((runOps (ThreadSafeLRUCache.initCache Nat String 2)
        [Op.put 1 "one" 0 0]).put 1 "updated" 1 0).2.get 1 0).1 =
       some "updated")) ∧
    ((runOps (ThreadSafeLRUCache.initCache Nat String 2)
        [Op.put 1 "one" 0 0]).put 1 "updated" 1 0).2.size = 1 :=
  ⟨by decide, by decide,
   put_update_in_place Nat String _ 1 "updated" 1 0 0 0 (by decide)
     (by decide),
   by decide⟩

/-- C10: the stored access_time is assigned exactly once, from the clock value
at entry creation by a put of an absent key, and is never rewritten: a get
(hit or miss) and a put that overwrites a present key preserve every entry's
(id, key, access_time) skeleton, so recency lives only in list position. -/
theorem access_time_immutable (K V : Type) [DecidableEq K]
    (c : ThreadSafeLRUCache K V) (ka kp k2 : K) (v : V) (t d id : Nat)
    (habs : lookupIdx ka c.index_ = none)
    (hp : lookupIdx kp c.index_ = some id) :
    ((c.put ka v t d).2.lru_list_.head? =
       some (c.next_node_id, ⟨ka, v, t⟩)) ∧
    (List.Perm (metaOf (c.get k2 d).2.lru_list_) (metaOf c.lru_list_)) ∧
    (List.Perm (metaOf (c.put kp v t d).2.lru_list_) (metaOf c.lru_list_)) := by
  refine ⟨?_, ?_, ?_⟩
  · rw [put_miss_eq habs]
    rfl
  · cases hlk : lookupIdx k2 c.index_ with
    | some id2 =>
        rw [get_hit_eq hlk]
        exact metaOf_move_to_front_perm id2 c.lru_list_
    | none => rw [get_miss_eq hlk]
  · rw [put_hit_eq hp]
    have hperm := metaOf_move_to_front_perm id (updateValue id v c.lru_list_)
    rw [metaOf_updateValue] at hperm
    exact hperm

/-- Witness for C10 on a cache holding keys 1 (created at clock 5) and 2
(created at clock 6): key 9 is absent, key 1 is present with node id 0, and
after a hit on get 1 its stored timestamp is still 5. -/
theorem access_time_immutable_witness :
    lookupIdx 9 (runOps (ThreadSafeLRUCache.initCache Nat Nat 3)
        [Op.put 1 10 5 0, Op.put 2 20 6 0]).index_ = none ∧
    lookupIdx 1 (runOps (ThreadSafeLRUCache.initCache Nat Nat 3)
        [Op.put 1 10 5 0, Op.put 2 20 6 0]).index_ = some 0 ∧
    (((runOps (ThreadSafeLRUCache.initCache Nat Nat 3)
        [Op.put 1 10 5 0, Op.put 2 20 6 0]).put 9 90 7 0).2.lru_list_.head? =
       some ((runOps (ThreadSafeLRUCache.initCache Nat Nat 3)
        [Op.put 1 10 5 0, Op.put 2 20 6 0]).next_node_id, ⟨9, 90, 7⟩) ∧
     List.Perm (metaOf ((runOps (ThreadSafeLRUCache.initCache Nat Nat 3)
        [Op.put 1 10 5 0, Op.put 2 20 6 0]).get 2 0).2.lru_list_)
       (metaOf (runOps (ThreadSafeLRUCache.initCache Nat Nat 3)
        [Op.put 1 10 5 0, Op.put 2 20 6 0]).lru_list_) ∧
     List.Perm (metaOf ((runOps (ThreadSafeLRUCache.initCache Nat Nat 3)
        [Op.put 1 10 5 0, Op.put 2 20 6 0]).put 1 11 8 0).2.lru_list_)
       (metaOf (runOps (ThreadSafeLRUCache.initCache Nat Nat 3)
        [Op.put 1 10 5 0, Op.put 2 20 6 0]).lru_list_)) ∧
    (findNode 0 ((runOps (ThreadSafeLRUCache.initCache Nat Nat 3)
        [Op.put 1 10 5 0, Op.put 2 20 6 0]).get 1 0).2.lru_list_).map
      (fun e => e.access_time) = some 5 :=
  ⟨by decide, by decide,
   access_time_immutable Nat Nat _ 9 1 2 90 7 0 0 (by decide) (by decide),
   by decide⟩

end Interview
